import Mathlib

/-!
# Verification of the website-builder backend core

Shallow embedding of the repository's core subsystems and proofs of the
spec's claims about them:

* `RunRegistry` (src/store.ts): the keyed in-memory run store with
  `saveRun` / `updateRun` / `getRun`.
* `BuildRunner` (buildSite / validateBuild modules): materialize a file set
  into a temporary working directory, run install+build, clean up, and
  report or record the result; `extractBuildError` distills raw output.
* `BlobTreeCommitter` (`pushAllFiles` in the github module): normalize and
  deduplicate a file set, upload blobs, build a tree layered over the base
  tree, create one commit, and advance the branch ref with a
  create-then-update fallback.
* `GenerateFixLoop`: the bounded generate/build retry loop (modelled from
  the spec, since only its regeneration step `fixFilesFromLLM` appears in
  the source tree).

JavaScript `Map` objects and remote key/value collections are embedded as
association lists with first-match lookup and in-place-update insertion,
which reproduces `Map.get` / `Map.set` (insertion order preserved, value
updated in place on key collision).
-/

set_option autoImplicit false

namespace WebsiteBuilder

universe u v

/-! ## Association-list primitives (model of JS `Map` and keyed stores) -/

/-- First-match lookup, the model of `Map.get` / keyed reads. -/
def lookupA {α : Type u} {β : Type v} [DecidableEq α] : List (α × β) → α → Option β
  | [], _ => none
  | (k, v) :: rest, a => if k = a then some v else lookupA rest a

/-- Insert-or-update, the model of `Map.set`: an existing key keeps its
position and gets the new value; a new key is appended at the end. -/
def setA {α : Type u} {β : Type v} [DecidableEq α] : List (α × β) → α → β → List (α × β)
  | [], a, b => [(a, b)]
  | (k, v) :: rest, a, b => if k = a then (a, b) :: rest else (k, v) :: setA rest a b

@[simp] theorem lookupA_nil {α : Type u} {β : Type v} [DecidableEq α] (a : α) :
    lookupA ([] : List (α × β)) a = none := rfl

theorem lookupA_cons {α : Type u} {β : Type v} [DecidableEq α]
    (k : α) (v : β) (rest : List (α × β)) (a : α) :
    lookupA ((k, v) :: rest) a = if k = a then some v else lookupA rest a := rfl

theorem lookupA_setA_self {α : Type u} {β : Type v} [DecidableEq α]
    (l : List (α × β)) (a : α) (b : β) : lookupA (setA l a b) a = some b := by
  induction l with
  | nil => simp [setA, lookupA]
  | cons p rest ih =>
    obtain ⟨k, v⟩ := p
    by_cases h : k = a
    · simp [setA, lookupA, h]
    · simp [setA, lookupA, h, ih]

theorem lookupA_setA_ne {α : Type u} {β : Type v} [DecidableEq α]
    (l : List (α × β)) (a a' : α) (b : β) (h : a' ≠ a) :
    lookupA (setA l a b) a' = lookupA l a' := by
  induction l with
  | nil => simp [setA, lookupA, if_neg (Ne.symm h)]
  | cons p rest ih =>
    obtain ⟨k, v⟩ := p
    simp only [setA]
    by_cases hk : k = a
    · subst hk
      simp [lookupA, if_neg (Ne.symm h)]
    · simp only [if_neg hk, lookupA]
      by_cases hk' : k = a'
      · simp [hk']
      · simp [hk', ih]

/-! ## RunRegistry — embedding of `src/store.ts` -/

/-- `BuildStatus` from store.ts: `'pending' | 'building' | 'ready' | 'failed'`. -/
inductive BuildStatus where
  | pending
  | building
  | ready
  | failed
deriving DecidableEq, Repr

/-- `RunMeta` from store.ts. -/
structure RunMeta where
  runId : String
  owner : String
  repo : String
  repoUrl : String
  defaultBranch : String
  prompt : String
  createdAt : String
  buildStatus : BuildStatus
  buildError : Option String
  vercelProjectId : Option String
  vercelUrl : Option String
deriving DecidableEq, Repr

/-- `Partial<RunMeta>`: each field is either absent (`none`) or present.
Call sites in the source only ever pass present keys with defined values,
so an absent key leaves the existing field untouched on merge. -/
structure RunPatch where
  runId : Option String
  owner : Option String
  repo : Option String
  repoUrl : Option String
  defaultBranch : Option String
  prompt : Option String
  createdAt : Option String
  buildStatus : Option BuildStatus
  buildError : Option String
  vercelProjectId : Option String
  vercelUrl : Option String
deriving DecidableEq, Repr

/-- The empty patch (no keys present). -/
def RunPatch.empty : RunPatch :=
  ⟨none, none, none, none, none, none, none, none, none, none, none⟩

/-- The spread merge `{ ...existing, ...patch }` of updateRun. -/
def applyPatch (m : RunMeta) (p : RunPatch) : RunMeta where
  runId := p.runId.getD m.runId
  owner := p.owner.getD m.owner
  repo := p.repo.getD m.repo
  repoUrl := p.repoUrl.getD m.repoUrl
  defaultBranch := p.defaultBranch.getD m.defaultBranch
  prompt := p.prompt.getD m.prompt
  createdAt := p.createdAt.getD m.createdAt
  buildStatus := p.buildStatus.getD m.buildStatus
  buildError := p.buildError <|> m.buildError
  vercelProjectId := p.vercelProjectId <|> m.vercelProjectId
  vercelUrl := p.vercelUrl <|> m.vercelUrl

/-- The registry itself: `const runs = new Map<string, RunMeta>()`. -/
abbrev RunStore := List (String × RunMeta)

/-- `saveRun(meta)`: `runs.set(meta.runId, meta)`. -/
def saveRun (runs : RunStore) (meta : RunMeta) : RunStore :=
  setA runs meta.runId meta

/-- `getRun(runId)`: `runs.get(runId) || null`. -/
def getRun (runs : RunStore) (runId : String) : Option RunMeta :=
  lookupA runs runId

/-- `updateRun(runId, patch)` from store.ts: look up the existing entry,
return doing nothing when absent, otherwise store the spread merge. -/
def updateRun (runs : RunStore) (runId : String) (patch : RunPatch) : RunStore :=
  match lookupA runs runId with
  | none => runs
  | some existing => setA runs runId (applyPatch existing patch)

/-- C10: `updateRun` on an unknown id is a complete no-op; on a known id it
replaces only that entry with the patch merged over the existing fields;
`saveRun` replaces only the entry at `meta.runId`; all other entries keep
their state under both operations. -/
theorem updateRun_saveRun_frame :
    (∀ (runs : RunStore) (runId : String) (p : RunPatch),
        lookupA runs runId = none → updateRun runs runId p = runs) ∧
    (∀ (runs : RunStore) (runId : String) (p : RunPatch) (k : String),
        k ≠ runId → lookupA (updateRun runs runId p) k = lookupA runs k) ∧
    (∀ (runs : RunStore) (runId : String) (p : RunPatch) (m : RunMeta),
        lookupA runs runId = some m →
        lookupA (updateRun runs runId p) runId = some (applyPatch m p)) ∧
    (∀ (runs : RunStore) (meta : RunMeta) (k : String),
        k ≠ meta.runId → lookupA (saveRun runs meta) k = lookupA runs k) ∧
    (∀ (runs : RunStore) (meta : RunMeta),
        lookupA (saveRun runs meta) meta.runId = some meta) := by
  refine ⟨?_, ?_, ?_, ?_, ?_⟩
  · intro runs runId p h
    simp [updateRun, h]
  · intro runs runId p k hk
    unfold updateRun
    cases h : lookupA runs runId with
    | none => rfl
    | some m => exact lookupA_setA_ne runs runId k (applyPatch m p) hk
  · intro runs runId p m h
    simp [updateRun, h, lookupA_setA_self]
  · intro runs meta k hk
    exact lookupA_setA_ne runs meta.runId k meta hk
  · intro runs meta
    exact lookupA_setA_self runs meta.runId meta

/-- Sample run metadata used to instantiate the frame theorem. -/
def sampleMeta : RunMeta :=
  ⟨"r1", "o", "repo", "https://example/repo", "main", "a site", "2026-01-01",
    BuildStatus.pending, none, none, none⟩

/-- A second sample run, stored alongside the first. -/
def sampleMeta2 : RunMeta :=
  ⟨"r2", "o", "repo2", "https://example/repo2", "main", "other", "2026-01-02",
    BuildStatus.building, none, none, none⟩

/-- A patch that marks a run failed with an error message. -/
def sampleFailPatch : RunPatch :=
  ⟨none, none, none, none, none, none, none, some BuildStatus.failed, some "boom", none, none⟩

/-- Witness for C10 at a concrete two-run registry. -/
theorem updateRun_saveRun_frame_witness :
    updateRun [("r1", sampleMeta)] "zzz" sampleFailPatch = [("r1", sampleMeta)] ∧
    lookupA (updateRun [("r1", sampleMeta), ("r2", sampleMeta2)] "r1" sampleFailPatch) "r2" =
      lookupA [("r1", sampleMeta), ("r2", sampleMeta2)] "r2" ∧
    lookupA (updateRun [("r1", sampleMeta), ("r2", sampleMeta2)] "r1" sampleFailPatch) "r1" =
      some (applyPatch sampleMeta sampleFailPatch) ∧
    lookupA (saveRun [("r1", sampleMeta)] sampleMeta2) "r1" =
      lookupA [("r1", sampleMeta)] "r1" ∧
    lookupA (saveRun [("r1", sampleMeta)] sampleMeta2) "r2" = some sampleMeta2 := by
  refine ⟨?_, ?_, ?_, ?_, ?_⟩
  · exact updateRun_saveRun_frame.1 [("r1", sampleMeta)] "zzz" sampleFailPatch (by decide)
  · exact updateRun_saveRun_frame.2.1 [("r1", sampleMeta), ("r2", sampleMeta2)] "r1"
      sampleFailPatch "r2" (by decide)
  · exact updateRun_saveRun_frame.2.2.1 [("r1", sampleMeta), ("r2", sampleMeta2)] "r1"
      sampleFailPatch sampleMeta (by decide)
  · exact updateRun_saveRun_frame.2.2.2.1 [("r1", sampleMeta)] sampleMeta2 "r1" (by decide)
  · exact updateRun_saveRun_frame.2.2.2.2 [("r1", sampleMeta)] sampleMeta2

/-! ## ErrorExtractor — embedding of `extractBuildError`

JavaScript string primitives are embedded at the character-list level:
`split('\n')`, `findIndex`, `slice(startIdx)` / `slice(-40)`, `join('\n')`
and `slice(0, 2000)` become structural functions on `List Char` /
`List (List Char)`, applied to `String.data`. -/

/-- `raw.split('\n')`, at the character level. -/
def splitLines : List Char → List (List Char)
  | [] => [[]]
  | c :: rest =>
    match splitLines rest with
    | [] => [[c]]
    | l :: ls => if c = '\n' then [] :: l :: ls else (c :: l) :: ls

/-- Sequence-prefix test used by the substring check. -/
def isPrefixSeq : List Char → List Char → Bool
  | [], _ => true
  | _ :: _, [] => false
  | a :: as, b :: bs => a = b && isPrefixSeq as bs

/-- `line.includes(pat)`: `pat` occurs as a contiguous subsequence. -/
def containsSeq (pat : List Char) : List Char → Bool
  | [] => isPrefixSeq pat []
  | c :: rest => isPrefixSeq pat (c :: rest) || containsSeq pat rest

/-- The known failure-marker set scanned for, in source order. -/
def errorMarkers : List (List Char) :=
  ["Failed to compile".data, "Type error:".data, "Module not found".data,
    "SyntaxError".data, "Error:".data]

/-- The predicate of the `findIndex` call: the line contains some marker. -/
def containsMarkerLine (l : List Char) : Bool :=
  errorMarkers.any (fun m => containsSeq m l)

/-- `Array.findIndex`, as an `Option Nat` (`-1` becomes `none`). -/
def findFirstIdx {α : Type u} (p : α → Bool) : List α → Option Nat
  | [] => none
  | a :: l => if p a then some 0 else (findFirstIdx p l).map (· + 1)

/-- `lines.join('\n')`, at the character level. -/
def joinLines : List (List Char) → List Char
  | [] => []
  | [l] => l
  | l :: ls => l ++ '\n' :: joinLines ls

/-- `extractBuildError(raw)` from the build-validation module: everything
from the first marker line onward, else the last 40 lines, truncated to
2000 characters. -/
def extractBuildError (raw : String) : String :=
  let lines := splitLines raw.data
  let relevant :=
    match findFirstIdx containsMarkerLine lines with
    | some i => lines.drop i
    | none => lines.drop (lines.length - 40)
  String.mk ((joinLines relevant).take 2000)

theorem findFirstIdx_some_get {α : Type u} (p : α → Bool) :
    ∀ (l : List α) (i : Nat), findFirstIdx p l = some i →
      ∃ a, l.get? i = some a ∧ p a = true := by
  intro l
  induction l with
  | nil => intro i h; simp [findFirstIdx] at h
  | cons a l ih =>
    intro i h
    by_cases hp : p a
    · simp [findFirstIdx, hp] at h
      subst h
      exact ⟨a, rfl, hp⟩
    · simp [findFirstIdx, hp] at h
      obtain ⟨i', hi', rfl⟩ := h
      obtain ⟨b, hb, hpb⟩ := ih i' hi'
      exact ⟨b, by simpa using hb, hpb⟩

theorem findFirstIdx_some_min {α : Type u} (p : α → Bool) :
    ∀ (l : List α) (i : Nat), findFirstIdx p l = some i →
      ∀ j a, j < i → l.get? j = some a → p a = false := by
  intro l
  induction l with
  | nil => intro i h; simp [findFirstIdx] at h
  | cons a l ih =>
    intro i h j b hj hb
    by_cases hp : p a
    · simp [findFirstIdx, hp] at h
      omega
    · simp [findFirstIdx, hp] at h
      obtain ⟨i', hi', rfl⟩ := h
      cases j with
      | zero =>
        simp at hb
        subst hb
        simpa using hp
      | succ j' =>
        exact ih i' hi' j' b (by omega) (by simpa using hb)

/-- C6: on output with a known failure marker, the result is the join of
the lines from the first marker line onward (truncated to 2000); with no
marker it is the at-most-40-line tail suffix (truncated to 2000); in every
case the result has at most 2000 characters. -/
theorem extractBuildError_spec (raw : String) :
    (∀ i, findFirstIdx containsMarkerLine (splitLines raw.data) = some i →
        extractBuildError raw =
          String.mk ((joinLines ((splitLines raw.data).drop i)).take 2000) ∧
        (∃ l, (splitLines raw.data).get? i = some l ∧ containsMarkerLine l = true) ∧
        (∀ j l, j < i → (splitLines raw.data).get? j = some l →
          containsMarkerLine l = false)) ∧
    (findFirstIdx containsMarkerLine (splitLines raw.data) = none →
        extractBuildError raw =
          String.mk ((joinLines ((splitLines raw.data).drop
            ((splitLines raw.data).length - 40))).take 2000) ∧
        ((splitLines raw.data).drop ((splitLines raw.data).length - 40)).length ≤ 40 ∧
        ∃ pre, pre ++ (splitLines raw.data).drop ((splitLines raw.data).length - 40) =
          splitLines raw.data) ∧
    (extractBuildError raw).length ≤ 2000 := by
  refine ⟨?_, ?_, ?_⟩
  · intro i h
    refine ⟨by simp [extractBuildError, h], findFirstIdx_some_get _ _ _ h,
      findFirstIdx_some_min _ _ _ h⟩
  · intro h
    refine ⟨by simp [extractBuildError, h], ?_, ?_⟩
    · have hd : ((splitLines raw.data).drop ((splitLines raw.data).length - 40)).length
          = (splitLines raw.data).length - ((splitLines raw.data).length - 40) :=
        List.length_drop _ _
      omega
    · exact ⟨(splitLines raw.data).take ((splitLines raw.data).length - 40),
        List.take_append_drop _ _⟩
  · unfold extractBuildError
    cases findFirstIdx containsMarkerLine (splitLines raw.data) <;>
      exact List.length_take_le _ _

/-- Raw build output whose second line carries a marker. -/
def rawMarkerExample : String := "npm noise\nType error: Foo is not defined\nat page.tsx"

/-- Raw build output with no known marker. -/
def rawPlainExample : String := "installing\nall good here"

/-- Witness for C6 at concrete outputs: the marker case starts at the
marker line, the plain case keeps the (short) tail, and the bound holds. -/
theorem extractBuildError_spec_witness :
    extractBuildError rawMarkerExample =
      String.mk ((joinLines ((splitLines rawMarkerExample.data).drop 1)).take 2000) ∧
    extractBuildError rawPlainExample =
      String.mk ((joinLines ((splitLines rawPlainExample.data).drop
        ((splitLines rawPlainExample.data).length - 40))).take 2000) ∧
    (extractBuildError rawMarkerExample).length ≤ 2000 :=
  ⟨((extractBuildError_spec rawMarkerExample).1 1 (by decide)).1,
    ((extractBuildError_spec rawPlainExample).2.1 (by decide)).1,
    (extractBuildError_spec rawMarkerExample).2.2⟩

/-! ## BuildRunner — embedding of `buildSiteAsync` and `validateBuild`

The filesystem and the two external build commands are abstracted: the
relevant state is which temporary working directories exist, which
run-keyed artifact directories exist, and the run registry; a
`BuildOracle` fixes the outcome (success, or a thrown error message) of
each potentially failing step of one call. -/

/-- One `{ path, content }` pair of a file set. -/
structure FileEntry where
  path : String
  content : String
deriving DecidableEq, Repr

/-- The `NEXT_CONFIG` constant of the build module: the system's own
static-export Next.js configuration. -/
def NEXT_CONFIG : String :=
  "/** @type \x7bimport(\x27next\x27).NextConfig\x7d */\nconst nextConfig = \x7b output: \x27export\x27 \x7d;\nexport default nextConfig;\n"

/-- Outcomes of the failing steps of one build call: `none` means the step
succeeds, `some e` means it throws with message `e`. -/
structure BuildOracle where
  writeErr : Option String
  installErr : Option String
  buildErr : Option String
  copyErr : Option String
deriving DecidableEq, Repr

/-- Abstracted machine state: existing temp working directories, run-keyed
artifact directories under `builds/`, and the run registry. -/
structure Sys where
  tmpDirs : List String
  builds : List String
  runs : RunStore
deriving DecidableEq, Repr

/-- `path.join('/tmp', 'preview-' + runId)` of buildSiteAsync. -/
def tmpDirName (runId : String) : String := "/tmp/preview-" ++ runId

/-- `path.join('/tmp', 'validate-' + runId)` of validateBuild. -/
def validateDirName (runId : String) : String := "/tmp/validate-" ++ runId

/-- The file-write loop shared by both build functions: entries are
written in order, a later duplicate path overwriting an earlier write. -/
def materializeFiles (files : List FileEntry) : List (String × String) :=
  files.foldl (fun m f => setA m f.path f.content) []

/-- Working-directory contents at the moment buildSiteAsync starts running
commands: the materialized file set, then the unconditional
`next.config.js` overwrite. -/
def buildWorkdirFiles (files : List FileEntry) : List (String × String) :=
  setA (materializeFiles files) "next.config.js" NEXT_CONFIG

/-- Working-directory contents at the moment validateBuild starts running
commands: just the materialized file set — validateBuild performs no
configuration overwrite. -/
def validateWorkdirFiles (files : List FileEntry) : List (String × String) :=
  materializeFiles files

/-- `{ buildStatus: 'building' }`. -/
def patchBuilding : RunPatch :=
  ⟨none, none, none, none, none, none, none, some BuildStatus.building, none, none, none⟩

/-- `{ buildStatus: 'ready' }`. -/
def patchReady : RunPatch :=
  ⟨none, none, none, none, none, none, none, some BuildStatus.ready, none, none, none⟩

/-- `{ buildStatus: 'failed', buildError }`. -/
def patchFailed (e : String) : RunPatch :=
  ⟨none, none, none, none, none, none, none, some BuildStatus.failed, some e, none, none⟩

/-- `buildSiteAsync(runId, files)`: mark building, write the files plus the
forced config into a fresh temp dir, run install and build, copy the
output to `builds/(runId)` and mark ready — any thrown step instead marks
failed with the message — and in all cases remove the temp dir in the
`finally`. Returns the final state and the sequence of registry patches
applied to this run. -/
def buildSiteAsync (o : BuildOracle) (runId : String) (_files : List FileEntry)
    (s : Sys) : Sys × List RunPatch :=
  let tmp := tmpDirName runId
  let s0 : Sys := { s with runs := updateRun s.runs runId patchBuilding }
  let body : Sys × List RunPatch × Option String :=
    match o.writeErr with
    | some e => ({ s0 with tmpDirs := tmp :: s0.tmpDirs }, [patchBuilding], some e)
    | none =>
      let s1 : Sys := { s0 with tmpDirs := tmp :: s0.tmpDirs }
      match o.installErr, o.buildErr, o.copyErr with
      | some e, _, _ => (s1, [patchBuilding], some e)
      | none, some e, _ => (s1, [patchBuilding], some e)
      | none, none, some e => (s1, [patchBuilding], some e)
      | none, none, none =>
        ({ s1 with builds := runId :: s1.builds,
                   runs := updateRun s1.runs runId patchReady },
          [patchBuilding, patchReady], none)
  match body with
  | (s2, trace, none) =>
    ({ s2 with tmpDirs := s2.tmpDirs.filter (fun d => d != tmp) }, trace)
  | (s2, trace, some e) =>
    ({ s2 with runs := updateRun s2.runs runId (patchFailed e),
               tmpDirs := s2.tmpDirs.filter (fun d => d != tmp) },
      trace ++ [patchFailed e])

/-- `BuildValidationResult` of the validation module. -/
structure BuildValidationResult where
  success : Bool
  error : Option String
deriving DecidableEq, Repr

/-- `validateBuild(runId, files)`: write the files into a fresh temp dir,
run install and build; a thrown step yields `success: false` with the
extracted error; the temp dir is removed in the `finally`. The registry is
not touched. -/
def validateBuild (o : BuildOracle) (runId : String) (_files : List FileEntry)
    (s : Sys) : Sys × BuildValidationResult :=
  let tmp := validateDirName runId
  let body : Sys × BuildValidationResult :=
    match o.writeErr with
    | some e =>
      ({ s with tmpDirs := tmp :: s.tmpDirs }, ⟨false, some (extractBuildError e)⟩)
    | none =>
      let s1 : Sys := { s with tmpDirs := tmp :: s.tmpDirs }
      match o.installErr, o.buildErr with
      | some e, _ => (s1, ⟨false, some (extractBuildError e)⟩)
      | none, some e => (s1, ⟨false, some (extractBuildError e)⟩)
      | none, none => (s1, ⟨true, none⟩)
  ({ body.1 with tmpDirs := body.1.tmpDirs.filter (fun d => d != tmp) }, body.2)

theorem contains_filter_ne (l : List String) (d : String) :
    ((l.filter (fun x => x != d)).contains d) = false := by
  rw [Bool.eq_false_iff]
  intro hc
  have hm : d ∈ l.filter (fun x => x != d) := by
    simp only [List.contains, List.elem_iff] at hc
    exact hc
  have hx := List.of_mem_filter hm
  simp at hx

/-- C7: whatever the outcome of every step — success, a build failure, or
an exception as early as file materialization — the temporary working
directory of the attempt is gone from the state both calls return. -/
theorem workdir_always_removed (o : BuildOracle) (runId : String)
    (files : List FileEntry) (s : Sys) :
    ((buildSiteAsync o runId files s).1.tmpDirs.contains (tmpDirName runId)) = false ∧
    ((validateBuild o runId files s).1.tmpDirs.contains (validateDirName runId)) = false := by
  obtain ⟨w, i, b, c⟩ := o
  constructor
  · cases w <;> cases i <;> cases b <;> cases c <;> exact contains_filter_ne _ _
  · cases w <;> cases i <;> cases b <;> exact contains_filter_ne _ _

/-- A file set that tries to supply its own `next.config.js`. -/
def evilFiles : List FileEntry :=
  [⟨"next.config.js", "module.exports = \x7b\x7d"⟩]

/-- Counterexample to C8: `validateBuild` materializes the file set as
given and never overwrites `next.config.js`, so with a file set carrying
its own entry at that path the build runs under the externally supplied
configuration, not the system one. -/
theorem validateBuild_config_not_forced :
    ¬ lookupA (validateWorkdirFiles evilFiles) "next.config.js" = some NEXT_CONFIG := by
  decide

/-- C8 as amended: `buildSiteAsync` unconditionally overwrites
`next.config.js` with the system static-export configuration, even when
the file set includes an entry at that path; the guarantee does not
extend to `validateBuild`. -/
theorem buildWorkdir_config_forced (files : List FileEntry) :
    lookupA (buildWorkdirFiles files) "next.config.js" = some NEXT_CONFIG :=
  lookupA_setA_self _ _ _

/-- Rank of a status along `pending → building → (ready | failed)`. -/
def statusRank : BuildStatus → Nat
  | BuildStatus.pending => 0
  | BuildStatus.building => 1
  | BuildStatus.ready => 2
  | BuildStatus.failed => 2

/-- The statuses written by a sequence of registry patches. -/
def patchStatuses (ps : List RunPatch) : List BuildStatus :=
  ps.filterMap (fun p => p.buildStatus)

theorem buildSiteAsync_trace (o : BuildOracle) (runId : String)
    (files : List FileEntry) (s : Sys) :
    (buildSiteAsync o runId files s).2 = [patchBuilding, patchReady] ∨
    ∃ e, (buildSiteAsync o runId files s).2 = [patchBuilding, patchFailed e] := by
  obtain ⟨w, i, b, c⟩ := o
  cases w <;> cases i <;> cases b <;> cases c <;>
    first
      | exact Or.inl rfl
      | exact Or.inr ⟨_, rfl⟩

/-- C9: one run's build pipeline writes exactly the status sequence
`building` then a terminal `ready`/`failed`, so the run's status history
`pending :: updates` is strictly rank-increasing: it never reverts to
`pending` and nothing follows the terminal status. -/
theorem run_status_monotone (o : BuildOracle) (runId : String)
    (files : List FileEntry) (s : Sys) :
    ∃ t, (t = BuildStatus.ready ∨ t = BuildStatus.failed) ∧
      patchStatuses (buildSiteAsync o runId files s).2 = [BuildStatus.building, t] ∧
      List.Chain' (fun a b => statusRank a < statusRank b)
        (BuildStatus.pending :: patchStatuses (buildSiteAsync o runId files s).2) := by
  rcases buildSiteAsync_trace o runId files s with h | ⟨e, h⟩
  · refine ⟨BuildStatus.ready, Or.inl rfl, ?_, ?_⟩
    · rw [h]
      rfl
    · rw [h]
      simp [patchStatuses, patchBuilding, patchReady, List.chain'_cons, statusRank]
  · refine ⟨BuildStatus.failed, Or.inr rfl, ?_, ?_⟩
    · rw [h]
      rfl
    · rw [h]
      simp [patchStatuses, patchBuilding, patchFailed, List.chain'_cons, statusRank]

/-! ## GenerateFixLoop — the bounded retry state machine -/

/-- Result of one attempt (generation followed by build-validation): it
either succeeds, or fails carrying the extracted error excerpt. -/
inductive AttemptOutcome where
  | success
  | failure (errorExcerpt : String)
deriving DecidableEq, Repr

/-- Modelled from the spec: the GenerateFixLoop retry state machine of
§4.4 is missing from src/ — the source tree only contains its
regeneration step `fixFilesFromLLM` (llm/generateFiles.ts), which has no
caller there. Per the spec: run one attempt; on success the run is
`ready`; on failure retry while the attempt count is below the configured
maximum, feeding the error excerpt back as corrective context; with the
budget exhausted the run is `failed` with the last error excerpt.
`outcome n` is the result of the n-th attempt (1-indexed); the arguments
are the current attempt number and the remaining attempt budget; the
result is (attempts performed, final status, last error excerpt). -/
def runFixLoopAux (outcome : Nat → AttemptOutcome) :
    Nat → Nat → Nat × BuildStatus × Option String
  | _, 0 => (0, BuildStatus.failed, none)
  | attempt, remaining + 1 =>
    match outcome attempt with
    | AttemptOutcome.success => (attempt, BuildStatus.ready, none)
    | AttemptOutcome.failure e =>
      if remaining = 0 then (attempt, BuildStatus.failed, some e)
      else runFixLoopAux outcome (attempt + 1) remaining

/-- Modelled from the spec: a full GenerateFixLoop run with the configured
maximum attempt count. -/
def generateFixLoop (outcome : Nat → AttemptOutcome) (maxAttempts : Nat) :
    Nat × BuildStatus × Option String :=
  runFixLoopAux outcome 1 maxAttempts

theorem runFixLoopAux_all_fail (outcome : Nat → AttemptOutcome)
    (err : Nat → String) (hfail : ∀ n, outcome n = AttemptOutcome.failure (err n)) :
    ∀ remaining attempt, 1 ≤ remaining →
      runFixLoopAux outcome attempt remaining =
        (attempt + remaining - 1, BuildStatus.failed, some (err (attempt + remaining - 1))) := by
  intro remaining
  induction remaining with
  | zero => intro attempt h; omega
  | succ r ih =>
    intro attempt _
    simp only [runFixLoopAux, hfail attempt]
    by_cases hr : r = 0
    · subst hr
      simp
    · rw [if_neg hr]
      have hrec := ih (attempt + 1) (by omega)
      rw [hrec]
      have hn : attempt + 1 + r - 1 = attempt + (r + 1) - 1 := by omega
      rw [hn]

/-- C5: when every attempt's generation or build fails, the loop performs
exactly the configured maximum number of attempts — never more — and ends
with status `failed` carrying the last attempt's error excerpt. -/
theorem generateFixLoop_exhausts_budget (outcome : Nat → AttemptOutcome)
    (err : Nat → String) (maxAttempts : Nat)
    (hfail : ∀ n, outcome n = AttemptOutcome.failure (err n))
    (hmax : 1 ≤ maxAttempts) :
    generateFixLoop outcome maxAttempts =
      (maxAttempts, BuildStatus.failed, some (err maxAttempts)) := by
  have h := runFixLoopAux_all_fail outcome err hfail maxAttempts 1 hmax
  unfold generateFixLoop
  rw [h]
  have hn : 1 + maxAttempts - 1 = maxAttempts := by omega
  rw [hn]

/-- A generator/build that fails on every attempt, with a distinguishable
excerpt on the third attempt. -/
def alwaysFailingOutcome : Nat → AttemptOutcome :=
  fun n => AttemptOutcome.failure (if n = 3 then "third" else "early")

/-- Witness for C5: with a budget of 3 and every attempt failing, exactly
3 attempts run and the final state is failed with the third excerpt. -/
theorem generateFixLoop_exhausts_budget_witness :
    generateFixLoop alwaysFailingOutcome 3 = (3, BuildStatus.failed, some "third") := by
  have h := generateFixLoop_exhausts_budget alwaysFailingOutcome
    (fun n => if n = 3 then "third" else "early") 3 (fun _ => rfl) (by decide)
  simpa using h

/-! ## BlobTreeCommitter — embedding of `pushAllFiles` (github module)

The remote content-addressed store is a `Remote` record of keyed
collections; ids are allocated from a counter. Each remote API call is
recorded in a `GitCall` trace. A `PushOracle` injects the remotely decided
outcome of each fallible call kind (a `none`/`false` entry means the call
behaves per the modelled remote state); thrown JS errors become
`PushErr` values mirroring the messages the source wraps them in. -/

/-- JS-whitespace trim of both ends, at the character level. -/
def trimChars (cs : List Char) : List Char :=
  ((cs.dropWhile Char.isWhitespace).reverse.dropWhile Char.isWhitespace).reverse

/-- `normalizeRepoPath`: every backslash becomes a forward slash, leading
slashes are stripped, then the path is trimmed — in source order. -/
def normalizeRepoPath (p : String) : String :=
  String.mk (trimChars ((p.data.map (fun c => if c = '\\' then '/' else c)).dropWhile
    (fun c => c = '/')))

/-- One iteration of the dedupe loop: skip an empty normalized path, else
`deduped.set(normalizedPath, file.content)`. -/
def dedupeStep (m : List (String × String)) (f : FileEntry) : List (String × String) :=
  let np := normalizeRepoPath f.path
  if np = "" then m else setA m np f.content

/-- `dedupeAndNormalizeFiles`: fold the entries into a `Map` keyed by
normalized path (empty paths skipped, last write wins, first-insertion
order kept), then read the entries back out. -/
def dedupeAndNormalizeFiles (files : List FileEntry) : List FileEntry :=
  (files.foldl dedupeStep []).map (fun kv => ⟨kv.1, kv.2⟩)

/-- The remote repository state: content-addressed blobs, trees (path ↦
blob id), commits (tree id and parent list), branch refs, and the id
allocator. -/
structure Remote where
  blobs : List (Nat × String)
  trees : List (Nat × List (String × Nat))
  commits : List (Nat × Nat × List Nat)
  refs : List (String × Nat)
  nextId : Nat
deriving DecidableEq, Repr

/-- Well-formedness used by the success-path theorems: every branch ref
points at an existing commit whose tree exists. -/
def Remote.WF (r : Remote) : Prop :=
  ∀ p ∈ r.refs, ((lookupA r.commits p.2).bind (fun tp => lookupA r.trees tp.1)).isSome = true

instance (r : Remote) : Decidable (Remote.WF r) :=
  inferInstanceAs (Decidable (∀ p ∈ r.refs,
    ((lookupA r.commits p.2).bind (fun tp => lookupA r.trees tp.1)).isSome = true))

/-- One remote API call, as recorded in the network trace. -/
inductive GitCall where
  | createBlob (content : String)
  | getRef (branch : String)
  | getCommit (sha : Nat)
  | createTree
  | createCommit
  | createRef (branch : String)
  | updateRef (branch : String)
deriving DecidableEq, Repr

/-- The errors `pushAllFiles` can surface, mirroring the source's wrapped
messages and rethrown statuses. -/
inductive PushErr where
  | noValidFiles
  | blobFailed (path : String) (msg : String)
  | refLookupFailed (status : Nat)
  | commitLookupFailed
  | treeFailed
  | commitFailed
  | refCreateFailed (status : Nat)
deriving DecidableEq, Repr

/-- Remotely decided outcomes of the fallible calls of one push:
`blobErr path` is the error message of the blob upload for `path` (or
`none` for success); `getRefErr`/`createRefErr` inject an error status for
the ref read / ref creation; `treeFail`/`commitFail` fail tree/commit
creation. -/
structure PushOracle where
  blobErr : String → Option String
  getRefErr : Option Nat
  treeFail : Bool
  commitFail : Bool
  createRefErr : Option Nat

/-- The oracle of a fully successful interaction. -/
def honestOracle : PushOracle := ⟨fun _ => none, none, false, false, none⟩

/-- The sequential blob-upload loop: on the first failing path the wrapped
error naming that path is thrown; otherwise the created blob ids are
returned in file order. -/
def createBlobsLoop (o : PushOracle) :
    Remote → List FileEntry → Remote × List GitCall × Except PushErr (List Nat)
  | r, [] => (r, [], Except.ok [])
  | r, f :: rest =>
    match o.blobErr f.path with
    | some m =>
      (r, [GitCall.createBlob f.content], Except.error (PushErr.blobFailed f.path m))
    | none =>
      let id := r.nextId
      let r1 : Remote := { r with blobs := (id, f.content) :: r.blobs, nextId := r.nextId + 1 }
      match createBlobsLoop o r1 rest with
      | (r2, calls, Except.ok ids) =>
        (r2, GitCall.createBlob f.content :: calls, Except.ok (id :: ids))
      | (r2, calls, Except.error e) =>
        (r2, GitCall.createBlob f.content :: calls, Except.error e)

/-- Resolve the current branch tip (`getRef` then `getCommit`): a missing
ref reads as a 404 and yields no parent — the empty-repository path; a
non-404 injected status is rethrown. Returns `(parentSha, baseTreeSha)`
when the branch exists. -/
def resolveBranchTip (o : PushOracle) (r : Remote) (branch : String) :
    List GitCall × Except PushErr (Option (Nat × Nat)) :=
  match o.getRefErr with
  | some s =>
    if s = 404 then ([GitCall.getRef branch], Except.ok none)
    else ([GitCall.getRef branch], Except.error (PushErr.refLookupFailed s))
  | none =>
    match lookupA r.refs branch with
    | none => ([GitCall.getRef branch], Except.ok none)
    | some parentSha =>
      match lookupA r.commits parentSha with
      | none =>
        ([GitCall.getRef branch, GitCall.getCommit parentSha],
          Except.error PushErr.commitLookupFailed)
      | some tp =>
        ([GitCall.getRef branch, GitCall.getCommit parentSha],
          Except.ok (some (parentSha, tp.1)))

/-- The final ref advance: attempt `createRef`; exactly a 422 rejection —
injected, or natural because the ref exists — falls back to `updateRef`;
any other error is rethrown. -/
def pushRefStep (o : PushOracle) (r3 : Remote) (branch : String) (commitId : Nat)
    (callsPre : List GitCall) : Remote × List GitCall × Except PushErr Nat :=
  match o.createRefErr with
  | some s =>
    if s = 422 then
      ({ r3 with refs := setA r3.refs branch commitId },
        callsPre ++ [GitCall.createRef branch, GitCall.updateRef branch],
        Except.ok commitId)
    else
      (r3, callsPre ++ [GitCall.createRef branch],
        Except.error (PushErr.refCreateFailed s))
  | none =>
    match lookupA r3.refs branch with
    | some _ =>
      ({ r3 with refs := setA r3.refs branch commitId },
        callsPre ++ [GitCall.createRef branch, GitCall.updateRef branch],
        Except.ok commitId)
    | none =>
      ({ r3 with refs := setA r3.refs branch commitId },
        callsPre ++ [GitCall.createRef branch],
        Except.ok commitId)

/-- The base tree read for the `base_tree` parameter: the resolved
branch-tip tree when the branch existed, empty otherwise. -/
def baseOf (r1 : Remote) (parentInfo : Option (Nat × Nat)) : List (String × Nat) :=
  match parentInfo with
  | some pi => (lookupA r1.trees pi.2).getD []
  | none => []

/-- The tree created by `createTree`: the (path, blob id) entries written
over the base tree — untouched base paths stay, touched paths are
replaced. -/
def newTreeOf (r1 : Remote) (normalizedFiles : List FileEntry) (blobShas : List Nat)
    (parentInfo : Option (Nat × Nat)) : List (String × Nat) :=
  (List.zip (normalizedFiles.map (fun f => f.path)) blobShas).foldl
    (fun t e => setA t e.1 e.2) (baseOf r1 parentInfo)

/-- `parents: parentSha ? [parentSha] : []` of `createCommit`. -/
def parentsOf : Option (Nat × Nat) → List Nat
  | some pi => [pi.1]
  | none => []

/-- Create the new tree (the uploaded blobs layered over the base tree),
create the commit referencing it and the resolved parent (zero parents if
none), then advance the ref. -/
def pushTreeCommitRef (o : PushOracle) (r1 : Remote) (branch : String)
    (normalizedFiles : List FileEntry) (blobShas : List Nat)
    (parentInfo : Option (Nat × Nat)) (callsPre : List GitCall) :
    Remote × List GitCall × Except PushErr Nat :=
  if o.treeFail then
    (r1, callsPre ++ [GitCall.createTree], Except.error PushErr.treeFailed)
  else
    let newTree := newTreeOf r1 normalizedFiles blobShas parentInfo
    let treeId := r1.nextId
    let r2 : Remote :=
      { r1 with trees := (treeId, newTree) :: r1.trees, nextId := r1.nextId + 1 }
    if o.commitFail then
      (r2, callsPre ++ [GitCall.createTree, GitCall.createCommit],
        Except.error PushErr.commitFailed)
    else
      let commitId := r2.nextId
      let r3 : Remote :=
        { r2 with commits := (commitId, treeId, parentsOf parentInfo) :: r2.commits,
                  nextId := r2.nextId + 1 }
      pushRefStep o r3 branch commitId
        (callsPre ++ [GitCall.createTree, GitCall.createCommit])

/-- `pushAllFiles`: normalize and dedupe, reject an empty result before
any call, upload blobs sequentially, resolve the branch tip (404 means
empty repository), build the layered tree, create one commit, and advance
the ref with the create-then-update fallback. -/
def pushAllFiles (o : PushOracle) (r : Remote) (branch : String)
    (files : List FileEntry) : Remote × List GitCall × Except PushErr Nat :=
  let normalizedFiles := dedupeAndNormalizeFiles files
  if normalizedFiles.length = 0 then
    (r, [], Except.error PushErr.noValidFiles)
  else
    match createBlobsLoop o r normalizedFiles with
    | (r1, calls1, Except.error e) => (r1, calls1, Except.error e)
    | (r1, calls1, Except.ok blobShas) =>
      match resolveBranchTip o r1 branch with
      | (calls2, Except.error e) => (r1, calls1 ++ calls2, Except.error e)
      | (calls2, Except.ok parentInfo) =>
        pushTreeCommitRef o r1 branch normalizedFiles blobShas parentInfo
          (calls1 ++ calls2)

/-- What the base tree of the current branch tip maps `q` to (`none` when
the branch, its commit, its tree, or the path is absent). -/
def baseTreeLookup (r : Remote) (branch : String) (q : String) : Option Nat :=
  match lookupA r.refs branch with
  | none => none
  | some p =>
    match lookupA r.commits p with
    | none => none
    | some tp =>
      match lookupA r.trees tp.1 with
      | none => none
      | some t => lookupA t q

/-- The spec-side description of deduplication: the content of the last
entry whose normalized path is `p`. -/
def lastWrite (files : List FileEntry) (p : String) : Option String :=
  files.foldl
    (fun acc f => if normalizeRepoPath f.path = p then some f.content else acc) none

/-- A deduplicated file list read as a finite map. -/
def findContent (l : List FileEntry) (p : String) : Option String :=
  lookupA (l.map (fun f => (f.path, f.content))) p

/-! ### Deduplication lemmas (C2) -/

theorem lookupA_setA {α : Type u} {β : Type v} [DecidableEq α]
    (l : List (α × β)) (a a' : α) (b : β) :
    lookupA (setA l a b) a' = if a = a' then some b else lookupA l a' := by
  by_cases h : a = a'
  · subst h
    simp [lookupA_setA_self]
  · simp [h, lookupA_setA_ne l a a' b (Ne.symm h)]

theorem lookupA_foldl_dedupeStep (p : String) (hp : p ≠ "") :
    ∀ (files : List FileEntry) (acc : List (String × String)),
      lookupA (files.foldl dedupeStep acc) p =
        files.foldl
          (fun a f => if normalizeRepoPath f.path = p then some f.content else a)
          (lookupA acc p) := by
  intro files
  induction files with
  | nil => intro acc; rfl
  | cons f fs ih =>
    intro acc
    simp only [List.foldl_cons]
    rw [ih]
    congr 1
    simp only [dedupeStep]
    by_cases h0 : normalizeRepoPath f.path = ""
    · have hne : ¬ normalizeRepoPath f.path = p := by
        rw [h0]
        exact fun hh => hp hh.symm
      rw [if_pos h0, if_neg hne]
    · rw [if_neg h0, lookupA_setA]

theorem map_pairs_of_map_mk (l : List (String × String)) :
    (l.map (fun kv => (⟨kv.1, kv.2⟩ : FileEntry))).map (fun f => (f.path, f.content)) = l := by
  induction l with
  | nil => rfl
  | cons kv rest ih => simp [ih]

theorem mem_keys_setA {α : Type u} {β : Type v} [DecidableEq α] :
    ∀ (l : List (α × β)) (a x : α) (b : β),
      x ∈ (setA l a b).map Prod.fst → x ∈ l.map Prod.fst ∨ x = a
  | [], a, x, b => by
    intro h
    simp [setA] at h
    exact Or.inr h
  | (k, v) :: rest, a, x, b => by
    intro h
    by_cases hk : k = a
    · simp only [setA, if_pos hk, List.map_cons, List.mem_cons] at h
      rcases h with h | h
      · exact Or.inr h
      · exact Or.inl (by simp only [List.map_cons, List.mem_cons]; exact Or.inr h)
    · simp only [setA, if_neg hk, List.map_cons, List.mem_cons] at h
      rcases h with h | h
      · exact Or.inl (by simp [h])
      · rcases mem_keys_setA rest a x b h with hm | he
        · exact Or.inl (by simp only [List.map_cons, List.mem_cons]; exact Or.inr hm)
        · exact Or.inr he

theorem keys_nodup_setA {α : Type u} {β : Type v} [DecidableEq α] :
    ∀ (l : List (α × β)) (a : α) (b : β),
      ((l.map Prod.fst).Nodup) → (((setA l a b).map Prod.fst).Nodup)
  | [], a, b => by
    intro
    simp [setA]
  | (k, v) :: rest, a, b => by
    intro h
    simp only [List.map_cons, List.nodup_cons] at h
    by_cases hk : k = a
    · subst hk
      have hset : setA ((k, v) :: rest) k b = (k, b) :: rest := by
        simp [setA]
      rw [hset]
      simp only [List.map_cons, List.nodup_cons]
      exact h
    · simp only [setA, if_neg hk, List.map_cons, List.nodup_cons]
      refine ⟨?_, keys_nodup_setA rest a b h.2⟩
      intro hx
      rcases mem_keys_setA rest a k b hx with hm | he
      · exact h.1 hm
      · exact hk he

theorem dedupe_foldl_keys_nodup :
    ∀ (files : List FileEntry) (acc : List (String × String)),
      ((acc.map Prod.fst).Nodup) → (((files.foldl dedupeStep acc).map Prod.fst).Nodup)
  | [], _ => fun h => h
  | f :: fs, acc => by
    intro h
    simp only [List.foldl_cons]
    apply dedupe_foldl_keys_nodup fs
    simp only [dedupeStep]
    by_cases h0 : normalizeRepoPath f.path = ""
    · simpa [h0] using h
    · simp only [if_neg h0]
      exact keys_nodup_setA acc _ _ h

theorem dedupe_foldl_keys_from :
    ∀ (files : List FileEntry) (acc : List (String × String)) (x : String),
      x ∈ (files.foldl dedupeStep acc).map Prod.fst →
      x ∈ acc.map Prod.fst ∨ (x ≠ "" ∧ ∃ g ∈ files, x = normalizeRepoPath g.path)
  | [], _, _ => fun h => Or.inl h
  | f :: fs, acc, x => by
    intro h
    simp only [List.foldl_cons] at h
    rcases dedupe_foldl_keys_from fs (dedupeStep acc f) x h with hm | ⟨hne, g, hg, hx⟩
    · simp only [dedupeStep] at hm
      by_cases h0 : normalizeRepoPath f.path = ""
      · rw [if_pos h0] at hm
        exact Or.inl hm
      · rw [if_neg h0] at hm
        rcases mem_keys_setA acc _ x _ hm with hm' | he
        · exact Or.inl hm'
        · exact Or.inr ⟨he ▸ h0, f, List.mem_cons_self f fs, he⟩
    · exact Or.inr ⟨hne, g, List.mem_cons_of_mem f hg, hx⟩

/-- C2: `pushAllFiles` first normalizes every path and deduplicates with
the last write for a normalized path winning (the deduplicated list is a
duplicate-free map of nonempty normalized input paths); when zero valid
entries remain it fails before any network call — no blob, tree, commit
or ref call is issued and the remote is untouched. -/
theorem pushAllFiles_normalize_dedupe_reject_empty :
    (∀ (o : PushOracle) (r : Remote) (branch : String) (files : List FileEntry),
        dedupeAndNormalizeFiles files = [] →
        pushAllFiles o r branch files = (r, [], Except.error PushErr.noValidFiles)) ∧
    (∀ (files : List FileEntry) (p : String), p ≠ "" →
        findContent (dedupeAndNormalizeFiles files) p = lastWrite files p) ∧
    (∀ files : List FileEntry,
        ((dedupeAndNormalizeFiles files).map (fun f => f.path)).Nodup) ∧
    (∀ (files : List FileEntry), ∀ f ∈ dedupeAndNormalizeFiles files,
        f.path ≠ "" ∧ ∃ g ∈ files, f.path = normalizeRepoPath g.path) := by
  refine ⟨?_, ?_, ?_, ?_⟩
  · intro o r branch files h
    simp [pushAllFiles, h]
  · intro files p hp
    unfold findContent dedupeAndNormalizeFiles lastWrite
    rw [map_pairs_of_map_mk]
    exact lookupA_foldl_dedupeStep p hp files []
  · intro files
    have h := dedupe_foldl_keys_nodup files [] (by simp)
    unfold dedupeAndNormalizeFiles
    have hmap : ((files.foldl dedupeStep []).map (fun kv => (⟨kv.1, kv.2⟩ : FileEntry))).map
        (fun f => f.path) = (files.foldl dedupeStep []).map Prod.fst := by
      simp
    rw [hmap]
    exact h
  · intro files f hf
    unfold dedupeAndNormalizeFiles at hf
    rcases List.mem_map.mp hf with ⟨kv, hkv, rfl⟩
    have hx : kv.1 ∈ (files.foldl dedupeStep []).map Prod.fst :=
      List.mem_map.mpr ⟨kv, hkv, rfl⟩
    rcases dedupe_foldl_keys_from files [] kv.1 hx with hm | h
    · simp at hm
    · exact h

/-- Witness for C2: a concrete file set exercising backslash and leading
slash normalization, last-write-wins deduplication, and the empty-input
rejection. -/
theorem pushAllFiles_normalize_dedupe_reject_empty_witness :
    pushAllFiles honestOracle ⟨[], [], [], [], 0⟩ "main"
        [⟨"/", "x"⟩, ⟨"", "y"⟩] = ((⟨[], [], [], [], 0⟩ : Remote), [],
        Except.error PushErr.noValidFiles) ∧
    findContent (dedupeAndNormalizeFiles
        [⟨"\\src\\a.ts", "first"⟩, ⟨"/src/a.ts", "second"⟩]) "src/a.ts" =
      lastWrite [⟨"\\src\\a.ts", "first"⟩, ⟨"/src/a.ts", "second"⟩] "src/a.ts" := by
  constructor
  · exact pushAllFiles_normalize_dedupe_reject_empty.1 honestOracle ⟨[], [], [], [], 0⟩
      "main" [⟨"/", "x"⟩, ⟨"", "y"⟩] (by decide)
  · exact pushAllFiles_normalize_dedupe_reject_empty.2.1
      [⟨"\\src\\a.ts", "first"⟩, ⟨"/src/a.ts", "second"⟩] "src/a.ts" (by decide)

/-! ### Blob-failure attribution (C3) -/

theorem createBlobsLoop_first_failure (o : PushOracle) :
    ∀ (fs : List FileEntry) (r : Remote) (f : FileEntry) (m : String),
      fs.find? (fun g => (o.blobErr g.path).isSome) = some f →
      o.blobErr f.path = some m →
      ∃ r' calls, createBlobsLoop o r fs =
          (r', calls, Except.error (PushErr.blobFailed f.path m)) ∧
        ∀ c ∈ calls, ∃ s, c = GitCall.createBlob s
  | [], r, f, m => by
    intro hfind _
    simp [List.find?] at hfind
  | g :: rest, r, f, m => by
    intro hfind hm
    cases hg : o.blobErr g.path with
    | some m0 =>
      simp only [List.find?, hg, Option.isSome] at hfind
      have hfg : g = f := by
        injection hfind
      subst hfg
      have hm0 : m0 = m := by
        rw [hg] at hm
        injection hm
      subst hm0
      refine ⟨r, [GitCall.createBlob g.content], ?_, ?_⟩
      · simp [createBlobsLoop, hg]
      · intro c hc
        simp at hc
        exact ⟨g.content, hc⟩
    | none =>
      simp only [List.find?, hg, Option.isSome] at hfind
      obtain ⟨r', calls, heq, hcalls⟩ :=
        createBlobsLoop_first_failure o rest
          { r with blobs := (r.nextId, g.content) :: r.blobs, nextId := r.nextId + 1 }
          f m hfind hm
      refine ⟨r', GitCall.createBlob g.content :: calls, ?_, ?_⟩
      · simp [createBlobsLoop, hg, heq]
      · intro c hc
        rcases List.mem_cons.mp hc with hc | hc
        · exact ⟨g.content, hc⟩
        · exact hcalls c hc

/-- C3: when some blob upload fails, the surfaced error names precisely
the first failing path (with the wrapped message), and the only calls
issued are blob creations — no tree, commit, or ref operation happens
after the failure. -/
theorem pushAllFiles_blob_failure (o : PushOracle) (r : Remote) (branch : String)
    (files : List FileEntry) (f : FileEntry) (m : String)
    (hfind : (dedupeAndNormalizeFiles files).find?
        (fun g => (o.blobErr g.path).isSome) = some f)
    (hm : o.blobErr f.path = some m) :
    (pushAllFiles o r branch files).2.2 =
      Except.error (PushErr.blobFailed f.path m) ∧
    ∀ c ∈ (pushAllFiles o r branch files).2.1, ∃ s, c = GitCall.createBlob s := by
  have hne : ¬ dedupeAndNormalizeFiles files = [] := by
    intro h0
    rw [h0] at hfind
    simp [List.find?] at hfind
  have hlen : ¬ (dedupeAndNormalizeFiles files).length = 0 := by
    intro h0
    exact hne (List.length_eq_zero.mp h0)
  obtain ⟨r', calls, heq, hcalls⟩ :=
    createBlobsLoop_first_failure o (dedupeAndNormalizeFiles files) r f m hfind hm
  constructor
  · simp [pushAllFiles, hlen, hne, heq]
  · intro c hc
    apply hcalls
    simpa [pushAllFiles, hlen, hne, heq] using hc

/-- An oracle that fails the blob upload exactly for path `b.txt`. -/
def blobFailOracle : PushOracle :=
  ⟨fun p => if p = "b.txt" then some "boom" else none, none, false, false, none⟩

/-- Witness for C3: with blobs failing at `b.txt`, the push surfaces the
error naming `b.txt` and issues only blob-creation calls. -/
theorem pushAllFiles_blob_failure_witness :
    (pushAllFiles blobFailOracle ⟨[], [], [], [], 0⟩ "main"
        [⟨"a.txt", "A"⟩, ⟨"b.txt", "B"⟩, ⟨"c.txt", "C"⟩]).2.2 =
      Except.error (PushErr.blobFailed "b.txt" "boom") ∧
    ∀ c ∈ (pushAllFiles blobFailOracle ⟨[], [], [], [], 0⟩ "main"
        [⟨"a.txt", "A"⟩, ⟨"b.txt", "B"⟩, ⟨"c.txt", "C"⟩]).2.1,
      ∃ s, c = GitCall.createBlob s :=
  pushAllFiles_blob_failure blobFailOracle ⟨[], [], [], [], 0⟩ "main"
    [⟨"a.txt", "A"⟩, ⟨"b.txt", "B"⟩, ⟨"c.txt", "C"⟩] ⟨"b.txt", "B"⟩ "boom"
    (by decide) (by decide)

/-! ### Success-path machinery (C1, C4) -/

theorem setA_append_of_not_mem {α : Type u} {β : Type v} [DecidableEq α] :
    ∀ (l : List (α × β)) (a : α) (b : β), a ∉ l.map Prod.fst →
      setA l a b = l ++ [(a, b)]
  | [], _, _ => fun _ => rfl
  | (k, v) :: rest, a, b => by
    intro h
    simp only [List.map_cons, List.mem_cons] at h
    push_neg at h
    simp only [setA, if_neg (Ne.symm h.1), List.cons_append, List.cons.injEq, true_and]
    exact setA_append_of_not_mem rest a b h.2

theorem dedupe_foldl_of_nodup :
    ∀ (files : List FileEntry) (acc : List (String × String)),
      (∀ f ∈ files, normalizeRepoPath f.path ≠ "") →
      ((files.map (fun f => normalizeRepoPath f.path)).Nodup) →
      (∀ f ∈ files, normalizeRepoPath f.path ∉ acc.map Prod.fst) →
      files.foldl dedupeStep acc =
        acc ++ files.map (fun f => (normalizeRepoPath f.path, f.content))
  | [], acc => by simp
  | f :: fs, acc => by
    intro hne hnodup hdisj
    simp only [List.map_cons, List.nodup_cons] at hnodup
    simp only [List.foldl_cons, List.map_cons]
    have h0 : normalizeRepoPath f.path ≠ "" := hne f (List.mem_cons_self f fs)
    have hstep : dedupeStep acc f = acc ++ [(normalizeRepoPath f.path, f.content)] := by
      simp only [dedupeStep, if_neg h0]
      exact setA_append_of_not_mem acc _ _ (hdisj f (List.mem_cons_self f fs))
    rw [hstep, dedupe_foldl_of_nodup fs (acc ++ [(normalizeRepoPath f.path, f.content)])
      (fun g hg => hne g (List.mem_cons_of_mem f hg)) hnodup.2 ?_]
    · simp
    · intro g hg
      simp only [List.map_append, List.mem_append, List.map_cons]
      rintro (hmem | hmem)
      · exact hdisj g (List.mem_cons_of_mem f hg) hmem
      · simp at hmem
        exact hnodup.1 (hmem ▸ List.mem_map_of_mem (fun x => normalizeRepoPath x.path) hg)

theorem dedupe_of_nodup (files : List FileEntry)
    (hne : ∀ f ∈ files, normalizeRepoPath f.path ≠ "")
    (hnodup : ((files.map (fun f => normalizeRepoPath f.path)).Nodup)) :
    dedupeAndNormalizeFiles files =
      files.map (fun f => ⟨normalizeRepoPath f.path, f.content⟩) := by
  unfold dedupeAndNormalizeFiles
  rw [dedupe_foldl_of_nodup files [] hne hnodup (by simp)]
  simp [List.map_map]

theorem mem_of_lookupA {α : Type u} {β : Type v} [DecidableEq α] :
    ∀ (l : List (α × β)) (a : α) (b : β), lookupA l a = some b → (a, b) ∈ l
  | [], a, b => by
    intro h
    simp [lookupA] at h
  | (k, v) :: rest, a, b => by
    intro h
    by_cases hk : k = a
    · subst hk
      have h' : some v = some b := by
        rw [lookupA_cons, if_pos rfl] at h
        exact h
      injection h' with h''
      subst h''
      exact List.mem_cons_self _ _
    · simp only [lookupA, if_neg hk] at h
      exact List.mem_cons_of_mem _ (mem_of_lookupA rest a b h)

theorem lookupA_foldl_setA_not_mem {α : Type u} {β : Type v} [DecidableEq α] :
    ∀ (entries : List (α × β)) (base : List (α × β)) (k : α),
      k ∉ entries.map Prod.fst →
      lookupA (entries.foldl (fun t e => setA t e.1 e.2) base) k = lookupA base k
  | [], _, _ => fun _ => rfl
  | e :: es, base, k => by
    intro h
    simp only [List.map_cons, List.mem_cons] at h
    push_neg at h
    simp only [List.foldl_cons]
    rw [lookupA_foldl_setA_not_mem es _ k h.2]
    exact lookupA_setA_ne base e.1 k e.2 h.1

theorem lookupA_foldl_setA_mem {α : Type u} {β : Type v} [DecidableEq α] :
    ∀ (entries : List (α × β)) (base : List (α × β)) (k : α) (v : β),
      ((entries.map Prod.fst).Nodup) → (k, v) ∈ entries →
      lookupA (entries.foldl (fun t e => setA t e.1 e.2) base) k = some v
  | [], _, _, _ => by
    intro _ h
    simp at h
  | e :: es, base, k, v => by
    intro hnd hmem
    simp only [List.map_cons, List.nodup_cons] at hnd
    simp only [List.foldl_cons]
    rcases List.mem_cons.mp hmem with he | hm
    · have hk : k ∉ es.map Prod.fst := by
        have : e.1 = k := by rw [← he]
        rw [← this]
        exact hnd.1
      rw [lookupA_foldl_setA_not_mem es _ k hk, ← he]
      exact lookupA_setA_self base k v
    · exact lookupA_foldl_setA_mem es _ k v hnd.2 hm

theorem createBlobsLoop_ok (o : PushOracle) (hb : ∀ p, o.blobErr p = none) :
    ∀ (fs : List FileEntry) (r : Remote),
      ∃ r', createBlobsLoop o r fs =
          (r', fs.map (fun f => GitCall.createBlob f.content),
            Except.ok (List.range' r.nextId fs.length)) ∧
        r'.nextId = r.nextId + fs.length ∧
        r'.trees = r.trees ∧ r'.commits = r.commits ∧ r'.refs = r.refs ∧
        (∀ k, k < r.nextId → lookupA r'.blobs k = lookupA r.blobs k) ∧
        (∀ i, ∀ h : i < fs.length,
          lookupA r'.blobs (r.nextId + i) = some (fs.get ⟨i, h⟩).content)
  | [], r => by
    refine ⟨r, ?_, by simp, rfl, rfl, rfl, fun k _ => rfl, fun i h => by simp at h⟩
    simp [createBlobsLoop]
  | f :: fs, r => by
    obtain ⟨r', heq, hnext, ht, hc, hr, hold, hnew⟩ :=
      createBlobsLoop_ok o hb fs
        { r with blobs := (r.nextId, f.content) :: r.blobs, nextId := r.nextId + 1 }
    refine ⟨r', ?_, ?_, ht, hc, hr, ?_, ?_⟩
    · simp only [createBlobsLoop, hb f.path, heq, List.map_cons, List.length_cons]
      rw [List.range'_succ r.nextId fs.length 1]
    · simp only [List.length_cons]
      simp at hnext
      omega
    · intro k hk
      rw [hold k (by simp; omega)]
      simp only [lookupA]
      rw [if_neg (by omega)]
    · intro i h
      cases i with
      | zero =>
        have h0 : lookupA r'.blobs r.nextId =
            lookupA ((r.nextId, f.content) :: r.blobs) r.nextId :=
          hold r.nextId (show r.nextId < r.nextId + 1 by omega)
        rw [Nat.add_zero, h0]
        simp [lookupA]
      | succ j =>
        have hj : j < fs.length := by
          simp at h
          omega
        have hstep : lookupA r'.blobs (r.nextId + 1 + j) =
            some (fs.get ⟨j, hj⟩).content :=
          hnew j hj
        have harith : r.nextId + (j + 1) = r.nextId + 1 + j := by omega
        rw [harith, hstep]
        rfl

theorem resolveBranchTip_ok (o : PushOracle) (r : Remote) (branch : String)
    (hg : o.getRefErr = none) (hwf : Remote.WF r) :
    (lookupA r.refs branch = none ∧
      resolveBranchTip o r branch = ([GitCall.getRef branch], Except.ok none)) ∨
    (∃ p tp t, lookupA r.refs branch = some p ∧ lookupA r.commits p = some tp ∧
      lookupA r.trees tp.1 = some t ∧
      resolveBranchTip o r branch =
        ([GitCall.getRef branch, GitCall.getCommit p], Except.ok (some (p, tp.1)))) := by
  cases href : lookupA r.refs branch with
  | none =>
    left
    refine ⟨rfl, ?_⟩
    simp [resolveBranchTip, hg, href]
  | some p =>
    right
    have hmem := mem_of_lookupA r.refs branch p href
    have hbind : ((lookupA r.commits p).bind (fun tp => lookupA r.trees tp.1)).isSome = true :=
      hwf (branch, p) hmem
    cases hcom : lookupA r.commits p with
    | none =>
      rw [hcom] at hbind
      simp at hbind
    | some tp =>
      rw [hcom] at hbind
      cases htr : lookupA r.trees tp.1 with
      | none =>
        simp [htr] at hbind
      | some t =>
        refine ⟨p, tp, t, rfl, hcom, htr, ?_⟩
        simp [resolveBranchTip, hg, href, hcom]

theorem pushTreeCommitRef_ok (o : PushOracle) (r1 : Remote) (branch : String)
    (nf : List FileEntry) (ids : List Nat) (parentInfo : Option (Nat × Nat))
    (callsPre : List GitCall) (ht : o.treeFail = false) (hc : o.commitFail = false) :
    pushTreeCommitRef o r1 branch nf ids parentInfo callsPre =
      pushRefStep o
        { blobs := r1.blobs,
          trees := (r1.nextId, newTreeOf r1 nf ids parentInfo) :: r1.trees,
          commits := (r1.nextId + 1, r1.nextId, parentsOf parentInfo) :: r1.commits,
          refs := r1.refs,
          nextId := r1.nextId + 2 }
        branch (r1.nextId + 1) (callsPre ++ [GitCall.createTree, GitCall.createCommit]) := by
  simp [pushTreeCommitRef, ht, hc]

theorem pushRefStep_fallback (o : PushOracle) (r3 : Remote) (branch : String)
    (cid : Nat) (calls : List GitCall) (h : o.createRefErr = some 422) :
    pushRefStep o r3 branch cid calls =
      ({ r3 with refs := setA r3.refs branch cid },
        calls ++ [GitCall.createRef branch, GitCall.updateRef branch],
        Except.ok cid) := by
  simp [pushRefStep, h]

theorem pushRefStep_other_error (o : PushOracle) (r3 : Remote) (branch : String)
    (cid : Nat) (calls : List GitCall) (s : Nat) (h : o.createRefErr = some s)
    (hs : s ≠ 422) :
    pushRefStep o r3 branch cid calls =
      (r3, calls ++ [GitCall.createRef branch],
        Except.error (PushErr.refCreateFailed s)) := by
  simp [pushRefStep, h, hs]

theorem pushRefStep_update (o : PushOracle) (r3 : Remote) (branch : String)
    (cid : Nat) (calls : List GitCall) (p : Nat) (h : o.createRefErr = none)
    (hx : lookupA r3.refs branch = some p) :
    pushRefStep o r3 branch cid calls =
      ({ r3 with refs := setA r3.refs branch cid },
        calls ++ [GitCall.createRef branch, GitCall.updateRef branch],
        Except.ok cid) := by
  simp [pushRefStep, h, hx]

theorem pushRefStep_create (o : PushOracle) (r3 : Remote) (branch : String)
    (cid : Nat) (calls : List GitCall) (h : o.createRefErr = none)
    (hx : lookupA r3.refs branch = none) :
    pushRefStep o r3 branch cid calls =
      ({ r3 with refs := setA r3.refs branch cid },
        calls ++ [GitCall.createRef branch],
        Except.ok cid) := by
  simp [pushRefStep, h, hx]

theorem pushAllFiles_eq_treeStep (o : PushOracle) (r r1 : Remote) (branch : String)
    (files : List FileEntry) (calls1 calls2 : List GitCall) (ids : List Nat)
    (parentInfo : Option (Nat × Nat))
    (hlen : ¬ (dedupeAndNormalizeFiles files).length = 0)
    (hloop : createBlobsLoop o r (dedupeAndNormalizeFiles files) =
      (r1, calls1, Except.ok ids))
    (hres : resolveBranchTip o r1 branch = (calls2, Except.ok parentInfo)) :
    pushAllFiles o r branch files =
      pushTreeCommitRef o r1 branch (dedupeAndNormalizeFiles files) ids parentInfo
        (calls1 ++ calls2) := by
  simp only [pushAllFiles]
  rw [if_neg hlen, hloop]
  dsimp only
  rw [hres]

theorem not_mem_blobCalls (fs : List FileEntry) (c : GitCall)
    (hnotblob : ∀ s, c ≠ GitCall.createBlob s) :
    c ∉ fs.map (fun f => GitCall.createBlob f.content) := by
  intro hmem
  rcases List.mem_map.mp hmem with ⟨f, _, heq⟩
  exact hnotblob f.content heq.symm

theorem pushAllFiles_shape (o : PushOracle) (r : Remote) (branch : String)
    (files : List FileEntry) (hb : ∀ p, o.blobErr p = none) (hg : o.getRefErr = none)
    (ht : o.treeFail = false) (hc : o.commitFail = false) (hwf : Remote.WF r)
    (hne : dedupeAndNormalizeFiles files ≠ []) :
    ∃ (r3 : Remote) (commitId : Nat) (callsPre : List GitCall),
      pushAllFiles o r branch files = pushRefStep o r3 branch commitId callsPre ∧
      r3.refs = r.refs ∧
      GitCall.updateRef branch ∉ callsPre ∧
      GitCall.createRef branch ∉ callsPre := by
  have hlen : ¬ (dedupeAndNormalizeFiles files).length = 0 := fun h0 =>
    hne (List.length_eq_zero.mp h0)
  obtain ⟨r1, hloop, hnext1, ht1, hc1, hr1, hold1, hnew1⟩ :=
    createBlobsLoop_ok o hb (dedupeAndNormalizeFiles files) r
  have hwf1 : Remote.WF r1 := by
    unfold Remote.WF
    rw [hr1, hc1, ht1]
    exact hwf
  have hnb : GitCall.updateRef branch ∉
      (dedupeAndNormalizeFiles files).map (fun f => GitCall.createBlob f.content) :=
    not_mem_blobCalls _ _ (fun s h => by injection h)
  have hnc : GitCall.createRef branch ∉
      (dedupeAndNormalizeFiles files).map (fun f => GitCall.createBlob f.content) :=
    not_mem_blobCalls _ _ (fun s h => by injection h)
  rcases resolveBranchTip_ok o r1 branch hg hwf1 with ⟨href, hres⟩ |
    ⟨p, tp, t, hp, hcp, htp, hres⟩
  · have hEQ := (pushAllFiles_eq_treeStep o r r1 branch files _ _ _ none hlen
      hloop hres).trans (pushTreeCommitRef_ok o r1 branch _ _ none _ ht hc)
    have hupd : GitCall.updateRef branch ∉
        ((dedupeAndNormalizeFiles files).map (fun f => GitCall.createBlob f.content) ++
          [GitCall.getRef branch]) ++ [GitCall.createTree, GitCall.createCommit] := by
      intro hmem
      rcases List.mem_append.mp hmem with hmem | hmem
      · rcases List.mem_append.mp hmem with hmem | hmem
        · exact hnb hmem
        · simp at hmem
      · simp at hmem
    have hcre : GitCall.createRef branch ∉
        ((dedupeAndNormalizeFiles files).map (fun f => GitCall.createBlob f.content) ++
          [GitCall.getRef branch]) ++ [GitCall.createTree, GitCall.createCommit] := by
      intro hmem
      rcases List.mem_append.mp hmem with hmem | hmem
      · rcases List.mem_append.mp hmem with hmem | hmem
        · exact hnc hmem
        · simp at hmem
      · simp at hmem
    exact ⟨_, _, _, hEQ, hr1, hupd, hcre⟩
  · have hEQ := (pushAllFiles_eq_treeStep o r r1 branch files _ _ _ (some (p, tp.1))
      hlen hloop hres).trans
      (pushTreeCommitRef_ok o r1 branch _ _ (some (p, tp.1)) _ ht hc)
    have hupd : GitCall.updateRef branch ∉
        ((dedupeAndNormalizeFiles files).map (fun f => GitCall.createBlob f.content) ++
          [GitCall.getRef branch, GitCall.getCommit p]) ++
          [GitCall.createTree, GitCall.createCommit] := by
      intro hmem
      rcases List.mem_append.mp hmem with hmem | hmem
      · rcases List.mem_append.mp hmem with hmem | hmem
        · exact hnb hmem
        · simp at hmem
      · simp at hmem
    have hcre : GitCall.createRef branch ∉
        ((dedupeAndNormalizeFiles files).map (fun f => GitCall.createBlob f.content) ++
          [GitCall.getRef branch, GitCall.getCommit p]) ++
          [GitCall.createTree, GitCall.createCommit] := by
      intro hmem
      rcases List.mem_append.mp hmem with hmem | hmem
      · rcases List.mem_append.mp hmem with hmem | hmem
        · exact hnc hmem
        · simp at hmem
      · simp at hmem
    exact ⟨_, _, _, hEQ, hr1, hupd, hcre⟩

/-- An otherwise-honest interaction whose ref creation gets outcome `e`
(`none`: remote-decided; `some s`: rejected with status `s`). -/
def refOracle (e : Option Nat) : PushOracle := ⟨fun _ => none, none, false, false, e⟩

/-- C4: the ref advance tries `createRef` first; exactly a 422/conflict
rejection (injected, or natural because the branch ref already exists)
falls back to updating the existing ref to the new commit id, so the
conflict is recovered internally — the call still succeeds and the branch
points at the new commit; any other ref-creation status propagates
unchanged; without a conflict no update call is made at all. -/
theorem pushAllFiles_ref_conflict_handling (r : Remote) (branch : String)
    (files : List FileEntry) (e : Option Nat) (hwf : Remote.WF r)
    (hne : dedupeAndNormalizeFiles files ≠ []) :
    (e = some 422 → ∃ c,
      (pushAllFiles (refOracle e) r branch files).2.2 = Except.ok c ∧
      lookupA (pushAllFiles (refOracle e) r branch files).1.refs branch = some c ∧
      GitCall.updateRef branch ∈ (pushAllFiles (refOracle e) r branch files).2.1) ∧
    (∀ s, e = some s → ¬ s = 422 →
      (pushAllFiles (refOracle e) r branch files).2.2 =
        Except.error (PushErr.refCreateFailed s)) ∧
    (e = none → ∀ p, lookupA r.refs branch = some p → ∃ c,
      (pushAllFiles (refOracle e) r branch files).2.2 = Except.ok c ∧
      lookupA (pushAllFiles (refOracle e) r branch files).1.refs branch = some c ∧
      GitCall.updateRef branch ∈ (pushAllFiles (refOracle e) r branch files).2.1) ∧
    (e = none → lookupA r.refs branch = none → ∃ c,
      (pushAllFiles (refOracle e) r branch files).2.2 = Except.ok c ∧
      lookupA (pushAllFiles (refOracle e) r branch files).1.refs branch = some c ∧
      GitCall.createRef branch ∈ (pushAllFiles (refOracle e) r branch files).2.1 ∧
      GitCall.updateRef branch ∉ (pushAllFiles (refOracle e) r branch files).2.1) := by
  obtain ⟨r3, cid, calls, hpush, hrefs3, hupd, hcre⟩ :=
    pushAllFiles_shape (refOracle e) r branch files (fun _ => rfl) rfl rfl rfl hwf hne
  refine ⟨?_, ?_, ?_, ?_⟩
  · intro h422
    have hstep : pushRefStep (refOracle e) r3 branch cid calls =
        ({ r3 with refs := setA r3.refs branch cid },
          calls ++ [GitCall.createRef branch, GitCall.updateRef branch],
          Except.ok cid) :=
      pushRefStep_fallback (refOracle e) r3 branch cid calls (by rw [h422]; rfl)
    rw [hpush, hstep]
    refine ⟨cid, rfl, lookupA_setA_self _ _ _, ?_⟩
    simp
  · intro s hs hs422
    have hstep := pushRefStep_other_error (refOracle e) r3 branch cid calls s
      (by rw [hs]; rfl) hs422
    rw [hpush, hstep]
  · intro hnone p hp
    have hx : lookupA r3.refs branch = some p := by
      rw [hrefs3]
      exact hp
    have hstep := pushRefStep_update (refOracle e) r3 branch cid calls p
      (by rw [hnone]; rfl) hx
    rw [hpush, hstep]
    refine ⟨cid, rfl, lookupA_setA_self _ _ _, ?_⟩
    simp
  · intro hnone hno
    have hx : lookupA r3.refs branch = none := by
      rw [hrefs3]
      exact hno
    have hstep := pushRefStep_create (refOracle e) r3 branch cid calls
      (by rw [hnone]; rfl) hx
    rw [hpush, hstep]
    refine ⟨cid, rfl, lookupA_setA_self _ _ _, by simp, ?_⟩
    intro hmem
    rcases List.mem_append.mp hmem with hmem | hmem
    · exact hupd hmem
    · simp at hmem

/-- An empty remote repository. -/
def remoteEmpty : Remote := ⟨[], [], [], [], 0⟩

/-- A remote whose `main` branch points at commit 1 with tree 0. -/
def remoteWithMain : Remote := ⟨[], [(0, [])], [(1, 0, [])], [("main", 1)], 2⟩

/-- Witness for C4 at concrete remotes: an injected 422 is recovered via
update; a 500 propagates; a natural ref conflict is recovered; an absent
ref is created with no update call. -/
theorem pushAllFiles_ref_conflict_handling_witness :
    (∃ c, (pushAllFiles (refOracle (some 422)) remoteEmpty "main"
        [⟨"a.txt", "A"⟩]).2.2 = Except.ok c ∧
      lookupA (pushAllFiles (refOracle (some 422)) remoteEmpty "main"
        [⟨"a.txt", "A"⟩]).1.refs "main" = some c ∧
      GitCall.updateRef "main" ∈ (pushAllFiles (refOracle (some 422)) remoteEmpty "main"
        [⟨"a.txt", "A"⟩]).2.1) ∧
    (pushAllFiles (refOracle (some 500)) remoteEmpty "main"
        [⟨"a.txt", "A"⟩]).2.2 = Except.error (PushErr.refCreateFailed 500) ∧
    (∃ c, (pushAllFiles (refOracle none) remoteWithMain "main"
        [⟨"a.txt", "A"⟩]).2.2 = Except.ok c ∧
      lookupA (pushAllFiles (refOracle none) remoteWithMain "main"
        [⟨"a.txt", "A"⟩]).1.refs "main" = some c ∧
      GitCall.updateRef "main" ∈ (pushAllFiles (refOracle none) remoteWithMain "main"
        [⟨"a.txt", "A"⟩]).2.1) ∧
    (∃ c, (pushAllFiles (refOracle none) remoteEmpty "main"
        [⟨"a.txt", "A"⟩]).2.2 = Except.ok c ∧
      lookupA (pushAllFiles (refOracle none) remoteEmpty "main"
        [⟨"a.txt", "A"⟩]).1.refs "main" = some c ∧
      GitCall.createRef "main" ∈ (pushAllFiles (refOracle none) remoteEmpty "main"
        [⟨"a.txt", "A"⟩]).2.1 ∧
      GitCall.updateRef "main" ∉ (pushAllFiles (refOracle none) remoteEmpty "main"
        [⟨"a.txt", "A"⟩]).2.1) :=
  ⟨(pushAllFiles_ref_conflict_handling remoteEmpty "main" [⟨"a.txt", "A"⟩] (some 422)
      (by decide) (by decide)).1 rfl,
    (pushAllFiles_ref_conflict_handling remoteEmpty "main" [⟨"a.txt", "A"⟩] (some 500)
      (by decide) (by decide)).2.1 500 rfl (by decide),
    (pushAllFiles_ref_conflict_handling remoteWithMain "main" [⟨"a.txt", "A"⟩] none
      (by decide) (by decide)).2.2.1 rfl 1 (by decide),
    (pushAllFiles_ref_conflict_handling remoteEmpty "main" [⟨"a.txt", "A"⟩] none
      (by decide) (by decide)).2.2.2 rfl (by decide)⟩

/-- C1: with every remote call succeeding, pushing a file set with N ≥ 1
entries of unique nonempty normalized paths creates exactly one new
commit; its tree maps each of the N normalized paths to a blob holding
that entry's content, layered over the base tree when the branch existed —
a path not touched by this commit looks up exactly as in the base tree —
and afterwards the branch ref points at the new commit. -/
theorem pushAllFiles_commit_spec (r : Remote) (branch : String) (files : List FileEntry)
    (hwf : Remote.WF r) (hnil : files ≠ [])
    (hpaths : ∀ f ∈ files, normalizeRepoPath f.path ≠ "")
    (hnodup : ((files.map (fun f => normalizeRepoPath f.path)).Nodup)) :
    ∃ c treeId parents newTree,
      (pushAllFiles honestOracle r branch files).2.2 = Except.ok c ∧
      (pushAllFiles honestOracle r branch files).1.commits =
        (c, treeId, parents) :: r.commits ∧
      lookupA (pushAllFiles honestOracle r branch files).1.trees treeId = some newTree ∧
      (∀ f ∈ files, ∃ b, lookupA newTree (normalizeRepoPath f.path) = some b ∧
        lookupA (pushAllFiles honestOracle r branch files).1.blobs b = some f.content) ∧
      (∀ q, q ∉ files.map (fun f => normalizeRepoPath f.path) →
        lookupA newTree q = baseTreeLookup r branch q) ∧
      lookupA (pushAllFiles honestOracle r branch files).1.refs branch = some c := by
  set nf : List FileEntry := files.map (fun f => ⟨normalizeRepoPath f.path, f.content⟩)
    with hnf
  have hded : dedupeAndNormalizeFiles files = nf := dedupe_of_nodup files hpaths hnodup
  have hlen : ¬ (dedupeAndNormalizeFiles files).length = 0 := by
    rw [hded, hnf, List.length_map]
    intro h0
    exact hnil (List.length_eq_zero.mp h0)
  obtain ⟨r1, hloopnf, hnext1, ht1, hc1, hr1, hold1, hnew1⟩ :=
    createBlobsLoop_ok honestOracle (fun _ => rfl) nf r
  have hloop : createBlobsLoop honestOracle r (dedupeAndNormalizeFiles files) =
      (r1, nf.map (fun f => GitCall.createBlob f.content),
        Except.ok (List.range' r.nextId nf.length)) := by
    rw [hded]
    exact hloopnf
  have hwf1 : Remote.WF r1 := by
    unfold Remote.WF
    rw [hr1, hc1, ht1]
    exact hwf
  have hkeys : nf.map (fun f => f.path) = files.map (fun f => normalizeRepoPath f.path) := by
    rw [hnf]
    simp [List.map_map]
  have hNlen : nf.length = files.length := by
    rw [hnf]
    exact List.length_map _ _
  have hidlen : (List.range' r.nextId nf.length).length = nf.length := by
    simp
  have hkeylen : (nf.map (fun f => f.path)).length = nf.length := List.length_map _ _
  have hzfst : (List.zip (nf.map (fun f => f.path)) (List.range' r.nextId nf.length)).map
      Prod.fst = nf.map (fun f => f.path) :=
    List.map_fst_zip _ _ (by rw [hkeylen, hidlen])
  have hzlen : (List.zip (nf.map (fun f => f.path)) (List.range' r.nextId nf.length)).length
      = nf.length := by
    rw [List.length_zip, hkeylen, hidlen]
    exact Nat.min_self _
  -- membership of the i-th (path, blob id) pair in the tree entries
  have hentry : ∀ (i : Nat) (hi : i < files.length),
      (normalizeRepoPath (files.get ⟨i, hi⟩).path, r.nextId + i) ∈
        List.zip (nf.map (fun f => f.path)) (List.range' r.nextId nf.length) := by
    intro i hi
    have hiz : i < (List.zip (nf.map (fun f => f.path))
        (List.range' r.nextId nf.length)).length := by
      rw [hzlen, hNlen]
      exact hi
    have hik : i < (nf.map (fun f => f.path)).length := by
      rw [hkeylen, hNlen]
      exact hi
    have hii : i < (List.range' r.nextId nf.length).length := by
      rw [hidlen, hNlen]
      exact hi
    refine List.mem_iff_getElem.mpr ⟨i, hiz, ?_⟩
    rw [List.getElem_zip]
    have h1 : (nf.map (fun f => f.path))[i] = normalizeRepoPath (files.get ⟨i, hi⟩).path := by
      simp only [hnf, List.getElem_map, List.get_eq_getElem]
    have h2 : (List.range' r.nextId nf.length)[i] = r.nextId + i :=
      List.getElem_range'_1 i hii
    rw [h1, h2]
  -- nodup keys of the tree entries
  have hznodup : ((List.zip (nf.map (fun f => f.path))
      (List.range' r.nextId nf.length)).map Prod.fst).Nodup := by
    rw [hzfst, hkeys]
    exact hnodup
  -- content of the i-th created blob
  have hblob : ∀ (i : Nat) (hi : i < files.length),
      lookupA r1.blobs (r.nextId + i) = some (files.get ⟨i, hi⟩).content := by
    intro i hi
    have hi' : i < nf.length := by
      rw [hNlen]
      exact hi
    have h := hnew1 i hi'
    have hget : (nf.get ⟨i, hi'⟩).content = (files.get ⟨i, hi⟩).content := by
      simp only [hnf, List.get_eq_getElem, List.getElem_map]
    rw [h, hget]
  rcases resolveBranchTip_ok honestOracle r1 branch rfl hwf1 with ⟨href, hres⟩ |
    ⟨p, tp, t, hp, hcp, htp, hres⟩
  -- branch absent: first commit on an empty repository
  · have hpush := (pushAllFiles_eq_treeStep honestOracle r r1 branch files _ _ _ none
      hlen hloop hres).trans
      (pushTreeCommitRef_ok honestOracle r1 branch (dedupeAndNormalizeFiles files)
        (List.range' r.nextId nf.length) none _ rfl rfl)
    rw [hded] at hpush
    have hfinal : pushAllFiles honestOracle r branch files =
        ({ blobs := r1.blobs,
           trees := (r1.nextId, newTreeOf r1 nf (List.range' r.nextId nf.length) none)
             :: r1.trees,
           commits := (r1.nextId + 1, r1.nextId, parentsOf none) :: r1.commits,
           refs := setA r1.refs branch (r1.nextId + 1),
           nextId := r1.nextId + 2 },
         ((nf.map (fun f => GitCall.createBlob f.content) ++ [GitCall.getRef branch]) ++
           [GitCall.createTree, GitCall.createCommit]) ++ [GitCall.createRef branch],
         Except.ok (r1.nextId + 1)) := by
      rw [hpush]
      exact pushRefStep_create honestOracle _ branch _ _ rfl href
    refine ⟨r1.nextId + 1, r1.nextId, parentsOf none,
      newTreeOf r1 nf (List.range' r.nextId nf.length) none, ?_, ?_, ?_, ?_, ?_, ?_⟩
    · rw [hfinal]
    · rw [hfinal, ← hc1]
    · rw [hfinal]
      simp [lookupA]
    · intro f hf
      obtain ⟨⟨i, hi⟩, hgetf⟩ := List.mem_iff_get.mp hf
      refine ⟨r.nextId + i, ?_, ?_⟩
      · unfold newTreeOf
        rw [← hgetf]
        exact lookupA_foldl_setA_mem _ _ _ _ hznodup (hentry i hi)
      · rw [hfinal, ← hgetf]
        exact hblob i hi
    · intro q hq
      unfold newTreeOf
      rw [lookupA_foldl_setA_not_mem _ _ q (by rw [hzfst, hkeys]; exact hq)]
      have href' : lookupA r.refs branch = none := by
        rw [← hr1]
        exact href
      simp [baseOf, baseTreeLookup, href', lookupA]
    · rw [hfinal]
      exact lookupA_setA_self _ _ _
  -- branch present: layered over the resolved base tree
  · have hpush := (pushAllFiles_eq_treeStep honestOracle r r1 branch files _ _ _
      (some (p, tp.1)) hlen hloop hres).trans
      (pushTreeCommitRef_ok honestOracle r1 branch (dedupeAndNormalizeFiles files)
        (List.range' r.nextId nf.length) (some (p, tp.1)) _ rfl rfl)
    rw [hded] at hpush
    have hfinal : pushAllFiles honestOracle r branch files =
        ({ blobs := r1.blobs,
           trees := (r1.nextId,
             newTreeOf r1 nf (List.range' r.nextId nf.length) (some (p, tp.1)))
             :: r1.trees,
           commits := (r1.nextId + 1, r1.nextId, parentsOf (some (p, tp.1)))
             :: r1.commits,
           refs := setA r1.refs branch (r1.nextId + 1),
           nextId := r1.nextId + 2 },
         ((nf.map (fun f => GitCall.createBlob f.content) ++
           [GitCall.getRef branch, GitCall.getCommit p]) ++
           [GitCall.createTree, GitCall.createCommit]) ++
           [GitCall.createRef branch, GitCall.updateRef branch],
         Except.ok (r1.nextId + 1)) := by
      rw [hpush]
      exact pushRefStep_update honestOracle _ branch _ _ p rfl hp
    refine ⟨r1.nextId + 1, r1.nextId, parentsOf (some (p, tp.1)),
      newTreeOf r1 nf (List.range' r.nextId nf.length) (some (p, tp.1)),
      ?_, ?_, ?_, ?_, ?_, ?_⟩
    · rw [hfinal]
    · rw [hfinal, ← hc1]
    · rw [hfinal]
      simp [lookupA]
    · intro f hf
      obtain ⟨⟨i, hi⟩, hgetf⟩ := List.mem_iff_get.mp hf
      refine ⟨r.nextId + i, ?_, ?_⟩
      · unfold newTreeOf
        rw [← hgetf]
        exact lookupA_foldl_setA_mem _ _ _ _ hznodup (hentry i hi)
      · rw [hfinal, ← hgetf]
        exact hblob i hi
    · intro q hq
      unfold newTreeOf
      rw [lookupA_foldl_setA_not_mem _ _ q (by rw [hzfst, hkeys]; exact hq)]
      have hp' : lookupA r.refs branch = some p := by
        rw [← hr1]
        exact hp
      have hcp' : lookupA r.commits p = some tp := by
        rw [← hc1]
        exact hcp
      have htp' : lookupA r.trees tp.1 = some t := by
        rw [← ht1]
        exact htp
      have htp1 : lookupA r1.trees tp.1 = some t := htp
      simp [baseOf, baseTreeLookup, hp', hcp', htp', htp1]
    · rw [hfinal]
      exact lookupA_setA_self _ _ _

/-- Witness for C1: pushing two files onto an empty remote yields the new
commit, its tree and blob contents, and the advanced ref. -/
theorem pushAllFiles_commit_spec_witness :
    (∃ c treeId parents newTree,
      (pushAllFiles honestOracle remoteEmpty "main"
        [⟨"a.txt", "A"⟩, ⟨"b.txt", "B"⟩]).2.2 = Except.ok c ∧
      (pushAllFiles honestOracle remoteEmpty "main"
        [⟨"a.txt", "A"⟩, ⟨"b.txt", "B"⟩]).1.commits =
        (c, treeId, parents) :: remoteEmpty.commits ∧
      lookupA (pushAllFiles honestOracle remoteEmpty "main"
        [⟨"a.txt", "A"⟩, ⟨"b.txt", "B"⟩]).1.trees treeId = some newTree ∧
      (∀ f ∈ [(⟨"a.txt", "A"⟩ : FileEntry), ⟨"b.txt", "B"⟩], ∃ b,
        lookupA newTree (normalizeRepoPath f.path) = some b ∧
        lookupA (pushAllFiles honestOracle remoteEmpty "main"
          [⟨"a.txt", "A"⟩, ⟨"b.txt", "B"⟩]).1.blobs b = some f.content) ∧
      (∀ q, q ∉ [(⟨"a.txt", "A"⟩ : FileEntry), ⟨"b.txt", "B"⟩].map
          (fun f => normalizeRepoPath f.path) →
        lookupA newTree q = baseTreeLookup remoteEmpty "main" q) ∧
      lookupA (pushAllFiles honestOracle remoteEmpty "main"
        [⟨"a.txt", "A"⟩, ⟨"b.txt", "B"⟩]).1.refs "main" = some c) :=
  pushAllFiles_commit_spec remoteEmpty "main" [⟨"a.txt", "A"⟩, ⟨"b.txt", "B"⟩]
    (by decide) (by decide) (by decide) (by decide)

end WebsiteBuilder
